import Mathlib

/-!
Verification development for the cambria-in-memory-store repository.

The repository's core is the class `CambriaStore` (src/src/index.ts): a
schema-versioned in-memory document store.  Documents are append-only logs of
(schema id, patch) entries; a lens graph connects schema versions and every
read replays the log through lens conversions.  The repository also contains
an earlier variant of the same class, `CambriaLocalStorage`, whose `readAs`
does not prepend the synthetic default-filling entry.

The store's own code is translated here definition by definition.  Its
external collaborators (the cambria lens engine, the fast-json-patch
structural diff/patch library, and crypto md5 hashing) are not part of the
repository; they are modelled from the specification's interface-boundary
description (spec sections 1, 6 and 9), at the granularity those boundary
contracts fix.  Each such definition carries a doc comment saying so.
-/

/- Structural JSON-like values manipulated by the store; the spec (section 9)
prescribes a recursive sum type object/array/string/number/bool/null.
ValueList and FieldList are the array-element and object-field spines. -/
mutual
inductive Value where
  | null : Value
  | bool (b : Bool) : Value
  | num (n : Int) : Value
  | str (s : String) : Value
  | arr (elems : ValueList) : Value
  | obj (fields : FieldList) : Value
deriving DecidableEq
inductive ValueList where
  | nil : ValueList
  | cons (hd : Value) (tl : ValueList) : ValueList
deriving DecidableEq
inductive FieldList where
  | nil : FieldList
  | cons (key : String) (val : Value) (tl : FieldList) : FieldList
deriving DecidableEq
end

/-- Schema identities are opaque strings (type SchemaId = string in the source). -/
abbrev SchemaId := String

/-- RFC-6902-style structural patch operation (fast-json-patch boundary,
spec section 6); paths are modelled as segment lists. -/
inductive Op where
  | add (path : List String) (value : Value)
  | remove (path : List String)
  | replace (path : List String) (value : Value)
deriving DecidableEq

/-- A structural patch is an ordered list of operations. -/
abbrev Patch := List Op

/-- Errors surfaced by the store (spec section 7), plus an error kind for
exceptions thrown by the caller's mutation callback. -/
inductive Err where
  | malformedDoc
  | noLensPath
  | unknownSchema
  | patchError
  | callbackError
deriving DecidableEq

/-- Read an object field (first binding wins, like a JS object read). -/
def getF : FieldList → String → Option Value
  | .nil, _ => none
  | .cons k0 v0 rest, k => if k0 = k then some v0 else getF rest k

/-- Write an object field: update the first existing binding in place, else
append, matching JS object assignment. -/
def setF : FieldList → String → Value → FieldList
  | .nil, k, v => .cons k v .nil
  | .cons k0 v0 rest, k, v =>
      if k0 = k then .cons k v rest else .cons k0 v0 (setF rest k v)

/-- Delete an object field. -/
def delF : FieldList → String → FieldList
  | .nil, _ => .nil
  | .cons k0 v0 rest, k =>
      if k0 = k then delF rest k else .cons k0 v0 (delF rest k)

/-- Rename an object field in place. -/
def renF : FieldList → String → String → FieldList
  | .nil, _, _ => .nil
  | .cons k0 v0 rest, a, b =>
      .cons (if k0 = a then b else k0) v0 (renF rest a b)

/-- Overlay the fields of `over` onto `base` (writes of `over` win). -/
def overlayF : FieldList → FieldList → FieldList
  | base, .nil => base
  | base, .cons k v tl => overlayF (setF base k v) tl

/-- Modelled from the spec: fast-json-patch `applyPatch` add semantics
(section 6 `applyNonMutating`); descends object paths, replaces at the root. -/
def addAt : Value → List String → Value → Except Err Value
  | _, [], w => .ok w
  | .obj kvs, [k], w => .ok (.obj (setF kvs k w))
  | .obj kvs, k :: k2 :: rest, w =>
      match getF kvs k with
      | some child =>
          match addAt child (k2 :: rest) w with
          | .ok c => .ok (.obj (setF kvs k c))
          | .error e => .error e
      | none => .error .patchError
  | _, _ :: _, _ => .error .patchError

/-- Modelled from the spec: fast-json-patch replace semantics with
validation, the target of a non-root replace must exist. -/
def replaceAt : Value → List String → Value → Except Err Value
  | _, [], w => .ok w
  | .obj kvs, [k], w =>
      match getF kvs k with
      | some _ => .ok (.obj (setF kvs k w))
      | none => .error .patchError
  | .obj kvs, k :: k2 :: rest, w =>
      match getF kvs k with
      | some child =>
          match replaceAt child (k2 :: rest) w with
          | .ok c => .ok (.obj (setF kvs k c))
          | .error e => .error e
      | none => .error .patchError
  | _, _ :: _, _ => .error .patchError

/-- Modelled from the spec: fast-json-patch remove semantics with
validation, the removed field must exist. -/
def removeAt : Value → List String → Except Err Value
  | _, [] => .error .patchError
  | .obj kvs, [k] =>
      match getF kvs k with
      | some _ => .ok (.obj (delF kvs k))
      | none => .error .patchError
  | .obj kvs, k :: k2 :: rest =>
      match getF kvs k with
      | some child =>
          match removeAt child (k2 :: rest) with
          | .ok c => .ok (.obj (setF kvs k c))
          | .error e => .error e
      | none => .error .patchError
  | _, _ :: _ => .error .patchError

/-- Apply a single patch operation. -/
def applyOp (v : Value) : Op → Except Err Value
  | .add p w => addAt v p w
  | .replace p w => replaceAt v p w
  | .remove p => removeAt v p

/-- Modelled from the spec: fast-json-patch applyPatch as the source calls
it, with validation on and in-place mutation off; fails on the first bad
operation, never mutates its argument (spec section 6 applyNonMutating). -/
def applyPatch (v : Value) : Patch → Except Err Value
  | [] => .ok v
  | op :: ops =>
      match applyOp v op with
      | .ok v2 => applyPatch v2 ops
      | .error e => .error e

/-- Modelled from the spec: fast-json-patch `compare` and the observer-based
`generate` (section 6 diff and section 9, which sanctions replacing
live-mutation observation by a before/after structural diff).  The boundary
contract only fixes that applying the diff to `before` yields `after` and
that the diff of equal snapshots is empty; modelled at root granularity. -/
def diff (before after : Value) : Patch :=
  if before = after then [] else [Op.replace [] after]

/-- Modelled from the spec: cambria lens operations (section 3 Lens:
add-property-with-default, remove, rename; each reversible). -/
inductive LensOp where
  | addProp (name : String) (defaultValue : Value)
  | removeProp (name : String) (defaultValue : Value)
  | renameProp (source target : String)
deriving DecidableEq

/-- A lens is a list of lens operations (cambria LensSource). -/
abbrev Lens := List LensOp

/-- Reverse a single lens operation (lenses are reversible, spec section 3). -/
def reverseLensOp : LensOp → LensOp
  | .addProp n d => .removeProp n d
  | .removeProp n d => .addProp n d
  | .renameProp a b => .renameProp b a

/-- Reverse a whole lens: reversed operations in reverse order. -/
def reverseLens (l : Lens) : Lens := (l.map reverseLensOp).reverse

/-- One lens-graph edge: a lens connecting a predecessor schema to a
successor schema (spec section 3 Schema Graph). -/
structure LensEdge where
  src : SchemaId
  tgt : SchemaId
  lens : Lens
deriving DecidableEq

/-- Modelled from the spec: the cambria lens graph, a value holding the set
of registered edges (edge insertion only, edges never removed). -/
abbrev LensGraph := List LensEdge

/-- Modelled from the spec: cambria `initLensGraph`, the graph holding only
the sentinel root identity (called mu in the source). -/
def initLensGraph : LensGraph := []

/-- Modelled from the spec: cambria `registerLens`, inserting one edge. -/
def registerLens (g : LensGraph) (src tgt : SchemaId) (l : Lens) : LensGraph :=
  g ++ [⟨src, tgt, l⟩]

/-- All schema identities mentioned by the graph, plus the sentinel mu. -/
def nodesOf (g : LensGraph) : List SchemaId :=
  "mu" :: g.foldr (fun e acc => e.src :: e.tgt :: acc) []

/-- Undirected adjacency: edges leaving `x` forward, then edges entering `x`
traversed backward through the reversed lens. -/
def neighbors (g : LensGraph) (x : SchemaId) : List (SchemaId × Lens) :=
  (g.filter (fun e => e.src = x)).map (fun e => (e.tgt, e.lens)) ++
  (g.filter (fun e => e.tgt = x)).map (fun e => (e.src, reverseLens e.lens))

/-- First result of `f` over a list, left to right. -/
def firstSome {α β : Type} (f : α → Option β) : List α → Option β
  | [] => none
  | x :: xs =>
      match f x with
      | some y => some y
      | none => firstSome f xs

/-- Depth-first search for a lens path to `target`; `visited` holds the
nodes already on the current path (including `cur`), so the search only
follows simple paths; fuel bounds the recursion depth. -/
def dfs (g : LensGraph) (target : SchemaId) : Nat → List SchemaId → SchemaId → Option Lens
  | 0, _, _ => none
  | fuel + 1, visited, cur =>
    if cur = target then some [] else
      firstSome (fun nb =>
          if nb.1 ∈ visited then none
          else (dfs g target fuel (nb.1 :: visited) nb.1).map (fun rest => nb.2 ++ rest))
        (neighbors g cur)

/-- Modelled from the spec: cambria `lensFromTo` (section 6 findLensPath):
resolve a deterministic path of lenses between two identities over the
registered edges, composing the traversed lenses; `none` when the two
identities are not connected (the source call throws in that case). -/
def lensFromTo (g : LensGraph) (a b : SchemaId) : Option Lens :=
  dfs g b ((nodesOf g).length + 1) [a] a

/-- Apply one lens operation to an object-field list (used both for schema
shapes and for converting object values carried by root-level patch ops). -/
def applyLensOpToFields (kvs : FieldList) : LensOp → FieldList
  | .addProp n d =>
      match getF kvs n with
      | some _ => kvs
      | none => setF kvs n d
  | .removeProp n _ => delF kvs n
  | .renameProp a b => renF kvs a b

/-- Apply a whole lens to an object-field list, operation by operation. -/
def applyLensToFields (l : Lens) (kvs : FieldList) : FieldList :=
  l.foldl applyLensOpToFields kvs

/-- Modelled from the spec: cambria `lensGraphSchema` (section 6 shapeOf):
the shape associated with an identity, here its field defaults, obtained by
folding the lens path from the sentinel root mu up to the identity. -/
def lensGraphSchema (g : LensGraph) (schemaId : SchemaId) : FieldList :=
  match lensFromTo g "mu" schemaId with
  | some l => applyLensToFields l .nil
  | none => .nil

/-- Convert an object value through a lens; non-objects pass through. -/
def applyLensToValue (l : Lens) : Value → Value
  | .obj kvs => .obj (applyLensToFields l kvs)
  | v => v

/-- Track one property name through a lens: renames rewrite it, a remove of
the property drops the operation referring to it. -/
def renameThrough (l : Lens) (k : String) : Option String :=
  l.foldl
    (fun acc op =>
      match acc, op with
      | none, _ => none
      | some k0, .renameProp a b => some (if k0 = a then b else k0)
      | some k0, .removeProp n _ => if k0 = n then none else some k0
      | some k0, .addProp _ _ => some k0)
    (some k)

/-- Expansion of a root-level add through a lens: the converted object is
overlaid onto the default object of the conversion target schema, which is
how target-schema defaults materialize (spec section 6 convertPatch
synthesizes default-valued operations). -/
def expandRootAdd (l : Lens) (sch : FieldList) (v : Value) : Value :=
  match applyLensToValue l v with
  | .obj kvs => .obj (overlayF (applyLensToFields l sch) kvs)
  | w => w

/-- Convert one patch operation through a lens (spec section 6 convertPatch):
root-level adds are expanded with target-schema defaults, root-level
replaces convert their object value, field-level operations have their
property renamed through the lens or are dropped when the lens removes the
property. -/
def convertOp (l : Lens) (sch : FieldList) : Op → Option Op
  | .add [] v => some (.add [] (expandRootAdd l sch v))
  | .replace [] v => some (.replace [] (applyLensToValue l v))
  | .remove [] => some (.remove [])
  | .add (k :: rest) v => (renameThrough l k).map (fun k2 => Op.add (k2 :: rest) v)
  | .replace (k :: rest) v => (renameThrough l k).map (fun k2 => Op.replace (k2 :: rest) v)
  | .remove (k :: rest) => (renameThrough l k).map (fun k2 => Op.remove (k2 :: rest))

/-- Modelled from the spec: cambria `applyLensToPatch` (section 6
convertPatch), converting a patch operation by operation; `sch` is the
shape of the patch's origin schema, supplied by the caller. -/
def applyLensToPatch (l : Lens) (p : Patch) (sch : FieldList) : Patch :=
  p.filterMap (convertOp l sch)

/- Deterministic rendering of values, standing in for JSON.stringify. -/
mutual
def valueToString : Value → String
  | .null => "null"
  | .bool b => if b then "true" else "false"
  | .num n => toString n
  | .str s => "(s " ++ s ++ ")"
  | .arr xs => "(a" ++ valueListToString xs ++ ")"
  | .obj kvs => "(o" ++ fieldListToString kvs ++ ")"
def valueListToString : ValueList → String
  | .nil => ""
  | .cons v tl => " " ++ valueToString v ++ valueListToString tl
def fieldListToString : FieldList → String
  | .nil => ""
  | .cons k v tl => " " ++ k ++ " " ++ valueToString v ++ fieldListToString tl
end

/-- Deterministic rendering of one lens operation. -/
def lensOpToString : LensOp → String
  | .addProp n d => "(add " ++ n ++ " " ++ valueToString d ++ ")"
  | .removeProp n d => "(remove " ++ n ++ " " ++ valueToString d ++ ")"
  | .renameProp a b => "(rename " ++ a ++ " " ++ b ++ ")"

/-- Deterministic rendering of a lens, standing in for JSON.stringify of a
LensSource in the source's schema-id derivation. -/
def lensToString (l : Lens) : String :=
  "(lens" ++ (l.map (fun op => " " ++ lensOpToString op)).foldl (fun a b => a ++ b) "" ++ ")"

/-- Modelled from the spec: crypto md5 hex digest (section 1: cryptographic
hashing used only to derive deterministic identifiers); modelled as an
injective deterministic encoding, which is all the store relies on. -/
def md5Hex (s : String) : String := "md5(" ++ s ++ ")"

/-- One document log entry: the patch plus the schema id it was written
under (interface TypedPatch in the source). -/
structure TypedPatch where
  schemaId : SchemaId
  patch : Patch
deriving DecidableEq

/-- A raw document: its append-only log of typed patches (interface RawDoc).
The field is an Option because a malformed JS document can lack it, which is
exactly the case readAs guards against. -/
structure RawDoc where
  patches : Option (List TypedPatch)
deriving DecidableEq

/-- The store state: the named head-pointer map and the lens graph
(class CambriaStore, fields headSchemas and graph). -/
structure CambriaStore where
  headSchemas : List (String × String)
  graph : LensGraph
deriving DecidableEq

/-- The constructor: empty lens graph, no named schemas. -/
def newCambriaStore : CambriaStore :=
  { headSchemas := [], graph := initLensGraph }

/-- Look up a named head schema (JS object read on headSchemas). -/
def lookupName : List (String × String) → String → Option String
  | [], _ => none
  | (k0, v0) :: rest, k => if k0 = k then some v0 else lookupName rest k

/-- Assign a named head schema: update the first existing binding in place,
else append (JS object assignment on headSchemas). -/
def setName : List (String × String) → String → String → List (String × String)
  | [], k, v => [(k, v)]
  | (k0, v0) :: rest, k, v =>
      if k0 = k then (k, v) :: rest else (k0, v0) :: setName rest k v

/-- CambriaStore.initDoc: a document whose log holds exactly one entry, the
diff from the empty object to the initial snapshot, tagged with the given
schema id. -/
def CambriaStore.initDoc (pojo : Value) (schemaId : SchemaId) : RawDoc :=
  { patches := some [{ schemaId := schemaId, patch := diff (Value.obj .nil) pojo }] }

/-- One step of the readAs fold: resolve the lens from the entry's origin
schema to the reader schema (error when no path exists), fetch the origin
schema's shape, convert the entry's patch, and apply it to the accumulator. -/
def readStep (g : LensGraph) (readerSchemaId : SchemaId) (typedDoc : Value)
    (p : TypedPatch) : Except Err Value :=
  match lensFromTo g p.schemaId readerSchemaId with
  | none => .error .noLensPath
  | some lens =>
      let patchSchema := lensGraphSchema g p.schemaId
      applyPatch typedDoc (applyLensToPatch lens p.patch patchSchema)

/-- The left fold of readAs over the patch log, stopping at the first error. -/
def foldPatches (g : LensGraph) (readerSchemaId : SchemaId) :
    Value → List TypedPatch → Except Err Value
  | acc, [] => .ok acc
  | acc, p :: ps =>
      match readStep g readerSchemaId acc p with
      | .ok acc2 => foldPatches g readerSchemaId acc2 ps
      | .error e => .error e

/-- CambriaStore.readAs: reject malformed documents, prepend the synthetic
default-filling entry (an add of the empty object at the root, tagged with
the reader schema id), then fold the log left to right converting each
entry from its writer schema to the reader schema. -/
def CambriaStore.readAs (store : CambriaStore) (doc : RawDoc)
    (readerSchemaId : SchemaId) : Except Err Value :=
  match doc.patches with
  | none => .error .malformedDoc
  | some ps =>
      let initPatch : TypedPatch :=
        { schemaId := readerSchemaId, patch := [Op.add [] (Value.obj .nil)] }
      foldPatches store.graph readerSchemaId (Value.obj .nil) (initPatch :: ps)

/-- CambriaLocalStorage.readAs (the earlier variant kept in the repository):
identical fold but with no synthetic leading entry. -/
def CambriaLocalStorage.readAs (store : CambriaStore) (doc : RawDoc)
    (readerSchemaId : SchemaId) : Except Err Value :=
  match doc.patches with
  | none => .error .malformedDoc
  | some ps => foldPatches store.graph readerSchemaId (Value.obj .nil) ps

/-- CambriaStore.changeTypedDoc in state-passing form: materialize the
document under the writer schema, run the caller's mutation callback, and
append the observed patch (the before/after diff, per spec section 9) as one
new log entry.  The returned store and document are the state after the
call; the source mutates neither until the final push, so both come back
unchanged whenever a step fails. -/
def CambriaStore.changeTypedDoc (store : CambriaStore) (doc : RawDoc)
    (writerSchemaId : SchemaId) (callback : Value → Except Err Value) :
    Except Err Unit × CambriaStore × RawDoc :=
  match store.readAs doc writerSchemaId with
  | .error e => (.error e, store, doc)
  | .ok typedDoc =>
      match callback typedDoc with
      | .error e => (.error e, store, doc)
      | .ok mutated =>
          (.ok (), store,
            { patches := doc.patches.map
                (fun ps => ps ++ [{ schemaId := writerSchemaId,
                                    patch := diff typedDoc mutated }]) })

/-- CambriaStore.initializeSchema: derive the root identity as the hash of
the name alone, register a root edge from the sentinel mu with the empty
lens, and point the name at the new identity (overwriting any previous
binding). -/
def CambriaStore.initializeSchema (store : CambriaStore) (name : String) :
    SchemaId × CambriaStore :=
  let schemaId := md5Hex name
  (schemaId,
    { graph := registerLens store.graph "mu" schemaId [],
      headSchemas := setName store.headSchemas name schemaId })

/-- CambriaStore.upgradeSchemaById: derive the new identity as the hash of
the predecessor identity concatenated with the serialized lens, and register
the edge; head pointers are untouched. -/
def CambriaStore.upgradeSchemaById (store : CambriaStore) (lens : Lens)
    (schemaId : SchemaId) : SchemaId × CambriaStore :=
  let newSchemaId := md5Hex (schemaId ++ lensToString lens)
  (newSchemaId,
    { store with graph := registerLens store.graph schemaId newSchemaId lens })

/-- CambriaStore.upgradeSchemaByName: look up the named head (the source
tests JS falsiness, so a missing binding and an empty-string binding both
fail), upgrade it by id, and move the head pointer to the new identity. -/
def CambriaStore.upgradeSchemaByName (store : CambriaStore) (lens : Lens)
    (schemaName : String) : Except Err SchemaId × CambriaStore :=
  match lookupName store.headSchemas schemaName with
  | none => (.error .unknownSchema, store)
  | some headSchemaId =>
      if headSchemaId = "" then (.error .unknownSchema, store)
      else
        let r := store.upgradeSchemaById lens headSchemaId
        (.ok r.1, { r.2 with headSchemas := setName r.2.headSchemas schemaName r.1 })

/-- CambriaStore.connectExistingSchemas: splice one edge directly between
two existing identities. -/
def CambriaStore.connectExistingSchemas (store : CambriaStore) (lens : Lens)
    (src tgt : SchemaId) : CambriaStore :=
  { store with graph := registerLens store.graph src tgt lens }

/-! ### Concrete fixture used to evaluate the development on closed inputs -/

/-- Fixture: store after creating the Project lineage. -/
def wStore0 : CambriaStore := (newCambriaStore.initializeSchema "Project").2

/-- Fixture: the Project root identity. -/
def wRoot : SchemaId := (newCambriaStore.initializeSchema "Project").1

/-- Fixture: a lens adding a title property. -/
def wLens : Lens := [LensOp.addProp "title" (Value.str "")]

/-- Fixture: the Project lineage upgraded by wLens. -/
def wUp : SchemaId × CambriaStore := wStore0.upgradeSchemaById wLens wRoot

/-- Fixture: the upgraded schema identity. -/
def wV1 : SchemaId := wUp.1

/-- Fixture: the store holding both schema versions. -/
def wStore1 : CambriaStore := wUp.2

/-- Fixture: a document initialized under wV1. -/
def wDoc : RawDoc :=
  CambriaStore.initDoc (Value.obj (.cons "title" (Value.str "hello") .nil)) wV1

/-- Fixture: the materialization of wDoc under wV1. -/
def wV : Value := Value.obj (.cons "title" (Value.str "hello") .nil)

/-- Fixture: a replacement value written by a mutation callback. -/
def wNew : Value := Value.obj (.cons "title" (Value.str "bye") .nil)

/-- Fixture: a second lens used to register one more schema version. -/
def wLens2 : Lens := [LensOp.addProp "extra" Value.null]

/-! ### Basic lemmas about the fold, the path search and patch conversion -/

theorem foldPatches_append (g : LensGraph) (r : SchemaId) (a : Value)
    (xs ys : List TypedPatch) :
    foldPatches g r a (xs ++ ys) =
      match foldPatches g r a xs with
      | .ok b => foldPatches g r b ys
      | .error e => .error e := by
  induction xs generalizing a with
  | nil => simp [foldPatches]
  | cons p ps ih =>
    simp only [List.cons_append, foldPatches]
    cases readStep g r a p with
    | ok a2 => simp [ih]
    | error e => simp

theorem dfs_self (g : LensGraph) (t : SchemaId) (m : Nat) (vis : List SchemaId) :
    dfs g t (m + 1) vis t = some [] := by
  simp [dfs]

theorem lensFromTo_self (g : LensGraph) (a : SchemaId) :
    lensFromTo g a a = some [] := by
  simp [lensFromTo, dfs_self]

theorem applyLensToValue_nil (v : Value) : applyLensToValue [] v = v := by
  cases v <;> simp [applyLensToValue, applyLensToFields]

theorem applyLensToPatch_nil_patch (l : Lens) (sch : FieldList) :
    applyLensToPatch l [] sch = [] := rfl

theorem readStep_diff_self (g : LensGraph) (s : SchemaId) (v w : Value) :
    readStep g s v { schemaId := s, patch := diff v w } = .ok w := by
  unfold readStep
  simp only [lensFromTo_self]
  by_cases h : v = w
  · subst h
    simp [diff, applyLensToPatch, applyPatch]
  · simp [diff, h, applyLensToPatch, convertOp, applyLensToValue_nil, applyPatch,
      applyOp, replaceAt]

/-! ### Fresh-node frame lemmas: registering an edge to a fresh identity
does not change path resolution between pre-existing identities -/

theorem mem_nodesOf_src {g : LensGraph} {e : LensEdge} (h : e ∈ g) :
    e.src ∈ nodesOf g := by
  induction g with
  | nil => cases h
  | cons e0 g0 ih =>
    simp only [nodesOf, List.foldr_cons, List.mem_cons] at *
    rcases h with h | h
    · subst h; tauto
    · rcases ih h with h2 | h2
      · tauto
      · tauto

theorem mem_nodesOf_tgt {g : LensGraph} {e : LensEdge} (h : e ∈ g) :
    e.tgt ∈ nodesOf g := by
  induction g with
  | nil => cases h
  | cons e0 g0 ih =>
    simp only [nodesOf, List.foldr_cons, List.mem_cons] at *
    rcases h with h | h
    · subst h; tauto
    · rcases ih h with h2 | h2
      · tauto
      · tauto

theorem filter_src_eq_nil {g : LensGraph} {n : SchemaId} (h : n ∉ nodesOf g) :
    g.filter (fun e => e.src = n) = [] := by
  rw [List.filter_eq_nil_iff]
  intro e he
  simp only [decide_eq_true_eq]
  intro hsrc
  exact h (hsrc ▸ mem_nodesOf_src he)

theorem filter_tgt_eq_nil {g : LensGraph} {n : SchemaId} (h : n ∉ nodesOf g) :
    g.filter (fun e => e.tgt = n) = [] := by
  rw [List.filter_eq_nil_iff]
  intro e he
  simp only [decide_eq_true_eq]
  intro htgt
  exact h (htgt ▸ mem_nodesOf_tgt he)

theorem mem_nodesOf_of_mem_neighbors {g : LensGraph} {x : SchemaId}
    {nb : SchemaId × Lens} (h : nb ∈ neighbors g x) : nb.1 ∈ nodesOf g := by
  unfold neighbors at h
  rcases List.mem_append.mp h with h1 | h1
  · rcases List.mem_map.mp h1 with ⟨e, he, heq⟩
    have := mem_nodesOf_tgt (List.mem_of_mem_filter he)
    rw [← heq]
    exact this
  · rcases List.mem_map.mp h1 with ⟨e, he, heq⟩
    have := mem_nodesOf_src (List.mem_of_mem_filter he)
    rw [← heq]
    exact this

theorem neighbors_fresh (g : LensGraph) (P n : SchemaId) (L : Lens)
    (hfresh : n ∉ nodesOf g) (hPn : P ≠ n) :
    neighbors (registerLens g P n L) n = [(P, reverseLens L)] := by
  unfold neighbors registerLens
  rw [List.filter_append, List.filter_append, List.map_append, List.map_append,
    filter_src_eq_nil hfresh, filter_tgt_eq_nil hfresh]
  simp [hPn]

theorem neighbors_other (g : LensGraph) (P n : SchemaId) (L : Lens) (x : SchemaId)
    (hxn : x ≠ n) (hxP : x ≠ P) :
    neighbors (registerLens g P n L) x = neighbors g x := by
  unfold neighbors registerLens
  rw [List.filter_append, List.filter_append, List.map_append, List.map_append]
  simp [Ne.symm hxP, Ne.symm hxn]

theorem neighbors_pred (g : LensGraph) (P n : SchemaId) (L : Lens)
    (hPn : P ≠ n) :
    neighbors (registerLens g P n L) P =
      (g.filter (fun e => e.src = P)).map (fun e => (e.tgt, e.lens)) ++ [(n, L)] ++
      (g.filter (fun e => e.tgt = P)).map (fun e => (e.src, reverseLens e.lens)) := by
  unfold neighbors registerLens
  rw [List.filter_append, List.filter_append, List.map_append, List.map_append]
  simp [Ne.symm hPn]

theorem firstSome_append {α β : Type} (f : α → Option β) (l1 l2 : List α) :
    firstSome f (l1 ++ l2) =
      match firstSome f l1 with
      | some y => some y
      | none => firstSome f l2 := by
  induction l1 with
  | nil => simp [firstSome]
  | cons x xs ih =>
    simp only [List.cons_append, firstSome]
    cases f x <;> simp [ih]

theorem firstSome_congr {α β : Type} (f h : α → Option β) (l : List α)
    (H : ∀ x ∈ l, f x = h x) : firstSome f l = firstSome h l := by
  induction l with
  | nil => rfl
  | cons x xs ih =>
    simp only [firstSome]
    rw [H x (List.mem_cons_self x xs), ih (fun y hy => H y (List.mem_cons_of_mem x hy))]

theorem dfs_deadEnd (g : LensGraph) (P n : SchemaId) (L : Lens) (target : SchemaId)
    (hfresh : n ∉ nodesOf g) (hPn : P ≠ n) (htn : target ≠ n) :
    ∀ fuel visited, P ∈ visited →
      dfs (registerLens g P n L) target fuel visited n = none := by
  intro fuel visited hP
  cases fuel with
  | zero => rfl
  | succ m =>
    unfold dfs
    rw [if_neg (Ne.symm htn), neighbors_fresh g P n L hfresh hPn]
    simp [firstSome, hP]

theorem dfs_frame (g : LensGraph) (P n : SchemaId) (L : Lens) (target : SchemaId)
    (hfresh : n ∉ nodesOf g) (htn : target ≠ n) :
    ∀ fuel visited cur, cur ∈ visited → cur ≠ n →
      dfs (registerLens g P n L) target fuel visited cur =
      dfs g target fuel visited cur := by
  intro fuel
  induction fuel with
  | zero => intro visited cur _ _; rfl
  | succ m ih =>
    intro visited cur hcv hcn
    unfold dfs
    by_cases hct : cur = target
    · rw [if_pos hct, if_pos hct]
    · rw [if_neg hct, if_neg hct]
      have hcong : ∀ nb ∈ neighbors g cur,
          (if nb.1 ∈ visited then none
           else (dfs (registerLens g P n L) target m (nb.1 :: visited) nb.1).map
             (fun rest => nb.2 ++ rest)) =
          (if nb.1 ∈ visited then none
           else (dfs g target m (nb.1 :: visited) nb.1).map (fun rest => nb.2 ++ rest)) := by
        intro nb hnb
        by_cases hv : nb.1 ∈ visited
        · rw [if_pos hv, if_pos hv]
        · have hn1 : nb.1 ∈ nodesOf g := mem_nodesOf_of_mem_neighbors hnb
          have hne : nb.1 ≠ n := fun h => hfresh (h ▸ hn1)
          rw [if_neg hv, if_neg hv,
            ih (nb.1 :: visited) nb.1 (List.mem_cons_self nb.1 visited) hne]
      by_cases hPn : P = n
      · have hcP : cur ≠ P := hPn ▸ hcn
        rw [neighbors_other g P n L cur hcn hcP]
        exact firstSome_congr _ _ _ hcong
      · by_cases hcP : cur = P
        · subst hcP
          rw [neighbors_pred g cur n L hPn]
          have hsplit : neighbors g cur =
              (g.filter (fun e => e.src = cur)).map (fun e => (e.tgt, e.lens)) ++
              (g.filter (fun e => e.tgt = cur)).map (fun e => (e.src, reverseLens e.lens)) := rfl
          rw [firstSome_append, firstSome_append]
          have hdead :
              (if n ∈ visited then none
               else (dfs (registerLens g cur n L) target m (n :: visited) n).map
                 (fun rest => L ++ rest)) = none := by
            by_cases hnv : n ∈ visited
            · rw [if_pos hnv]
            · rw [if_neg hnv,
                dfs_deadEnd g cur n L target hfresh hPn htn m (n :: visited)
                  (List.mem_cons_of_mem n hcv)]
              rfl
          rw [hsplit, firstSome_append]
          have hfwd := firstSome_congr
            (fun (nb : SchemaId × Lens) => if nb.1 ∈ visited then none
              else (dfs (registerLens g cur n L) target m (nb.1 :: visited) nb.1).map
                (fun rest => nb.2 ++ rest))
            (fun (nb : SchemaId × Lens) => if nb.1 ∈ visited then none
              else (dfs g target m (nb.1 :: visited) nb.1).map (fun rest => nb.2 ++ rest))
            ((g.filter (fun e => e.src = cur)).map (fun e => (e.tgt, e.lens)))
            (fun nb hnb => hcong nb (by rw [hsplit]; exact List.mem_append_left _ hnb))
          have hbwd := firstSome_congr
            (fun (nb : SchemaId × Lens) => if nb.1 ∈ visited then none
              else (dfs (registerLens g cur n L) target m (nb.1 :: visited) nb.1).map
                (fun rest => nb.2 ++ rest))
            (fun (nb : SchemaId × Lens) => if nb.1 ∈ visited then none
              else (dfs g target m (nb.1 :: visited) nb.1).map (fun rest => nb.2 ++ rest))
            ((g.filter (fun e => e.tgt = cur)).map (fun e => (e.src, reverseLens e.lens)))
            (fun nb hnb => hcong nb (by rw [hsplit]; exact List.mem_append_right _ hnb))
          rw [hfwd, hbwd]
          cases hfs : firstSome
              (fun nb => if nb.1 ∈ visited then none
                else (dfs g target m (nb.1 :: visited) nb.1).map (fun rest => nb.2 ++ rest))
              ((g.filter (fun e => e.src = cur)).map (fun e => (e.tgt, e.lens))) with
          | some y => simp [firstSome]
          | none => simp [firstSome, hdead]
        · rw [neighbors_other g P n L cur hcn hcP]
          exact firstSome_congr _ _ _ hcong

theorem length_filter_notMem_cons_le {l vis : List String} (x : String) :
    (l.filter (fun y => y ∉ x :: vis)).length ≤ (l.filter (fun y => y ∉ vis)).length :=
  List.Sublist.length_le
    (List.monotone_filter_right l
      (fun a ha => by
        simp only [decide_eq_true_eq, List.mem_cons, not_or] at ha ⊢
        exact ha.2))

theorem length_filter_notMem_cons_lt {l vis : List String} {x : String}
    (hx : x ∈ l) (hxv : x ∉ vis) :
    (l.filter (fun y => y ∉ x :: vis)).length < (l.filter (fun y => y ∉ vis)).length := by
  induction l with
  | nil => cases hx
  | cons y l ih =>
    by_cases hyx : y = x
    · subst hyx
      rw [List.filter_cons, List.filter_cons]
      have h1 : (decide (y ∉ y :: vis)) = false := by simp
      have h2 : (decide (y ∉ vis)) = true := by simpa using hxv
      rw [h1, h2]
      simp only [List.length_cons]
      exact Nat.lt_succ_of_le (length_filter_notMem_cons_le y)
    · have hx2 : x ∈ l := by
        rcases List.mem_cons.mp hx with h | h
        · exact absurd h.symm hyx
        · exact h
      rw [List.filter_cons, List.filter_cons]
      have hsame : (decide (y ∉ x :: vis)) = (decide (y ∉ vis)) := by
        simp only [List.mem_cons, not_or, decide_not]
        by_cases hyv : y ∈ vis
        · simp [hyv]
        · simp [hyv, hyx]
      rw [hsame]
      cases hd : decide (y ∉ vis) with
      | true => simpa using Nat.succ_lt_succ (ih hx2)
      | false => simpa using ih hx2

theorem dfs_fuel_inv (g : LensGraph) (target : SchemaId) :
    ∀ f1 f2 visited cur,
      ((nodesOf g).filter (fun y => y ∉ visited)).length < f1 →
      ((nodesOf g).filter (fun y => y ∉ visited)).length < f2 →
      dfs g target f1 visited cur = dfs g target f2 visited cur := by
  intro f1
  induction f1 with
  | zero => intro f2 visited cur h1 _; exact absurd h1 (Nat.not_lt_zero _)
  | succ m1 ih =>
    intro f2 visited cur h1 h2
    cases f2 with
    | zero => exact absurd h2 (Nat.not_lt_zero _)
    | succ m2 =>
      unfold dfs
      by_cases hct : cur = target
      · rw [if_pos hct, if_pos hct]
      · rw [if_neg hct, if_neg hct]
        apply firstSome_congr
        intro nb hnb
        by_cases hv : nb.1 ∈ visited
        · rw [if_pos hv, if_pos hv]
        · rw [if_neg hv, if_neg hv]
          have hmem : nb.1 ∈ nodesOf g := mem_nodesOf_of_mem_neighbors hnb
          have hlt := @length_filter_notMem_cons_lt (nodesOf g) visited nb.1 hmem hv
          rw [ih m2 (nb.1 :: visited) nb.1
            (Nat.lt_of_lt_of_le hlt (Nat.lt_succ_iff.mp h1))
            (Nat.lt_of_lt_of_le hlt (Nat.lt_succ_iff.mp h2))]

theorem nodesAux_append (g : LensGraph) (init : List SchemaId) :
    g.foldr (fun e acc => e.src :: e.tgt :: acc) init =
      g.foldr (fun e acc => e.src :: e.tgt :: acc) [] ++ init := by
  induction g with
  | nil => rfl
  | cons e g0 ih => simp [List.foldr_cons, ih]

theorem nodesOf_registerLens (g : LensGraph) (P n : SchemaId) (L : Lens) :
    nodesOf (registerLens g P n L) = nodesOf g ++ [P, n] := by
  unfold nodesOf registerLens
  rw [List.foldr_append]
  simp only [List.foldr_cons, List.foldr_nil]
  rw [nodesAux_append g [P, n]]
  rfl

theorem lensFromTo_frame (g : LensGraph) (P n : SchemaId) (L : Lens) (a b : SchemaId)
    (hfresh : n ∉ nodesOf g) (ha : a ≠ n) (hb : b ≠ n) :
    lensFromTo (registerLens g P n L) a b = lensFromTo g a b := by
  unfold lensFromTo
  rw [dfs_frame g P n L b hfresh hb _ [a] a (List.mem_singleton.mpr rfl) ha]
  apply dfs_fuel_inv
  · calc ((nodesOf g).filter (fun y => y ∉ [a])).length
        ≤ (nodesOf g).length := List.length_filter_le _ _
      _ < (nodesOf (registerLens g P n L)).length + 1 := by
          rw [nodesOf_registerLens]
          simp only [List.length_append, List.length_cons, List.length_singleton]
          omega
  · calc ((nodesOf g).filter (fun y => y ∉ [a])).length
        ≤ (nodesOf g).length := List.length_filter_le _ _
      _ < (nodesOf g).length + 1 := Nat.lt_succ_self _

theorem lensGraphSchema_frame (g : LensGraph) (P n : SchemaId) (L : Lens) (x : SchemaId)
    (hfresh : n ∉ nodesOf g) (hx : x ≠ n) :
    lensGraphSchema (registerLens g P n L) x = lensGraphSchema g x := by
  have hmu : "mu" ≠ n := by
    intro h
    exact hfresh (h ▸ (by simp [nodesOf] : "mu" ∈ nodesOf g))
  unfold lensGraphSchema
  rw [lensFromTo_frame g P n L "mu" x hfresh hmu hx]

theorem readStep_frame (g : LensGraph) (P n : SchemaId) (L : Lens)
    (reader : SchemaId) (acc : Value) (p : TypedPatch)
    (hfresh : n ∉ nodesOf g) (hp : p.schemaId ≠ n) (hr : reader ≠ n) :
    readStep (registerLens g P n L) reader acc p = readStep g reader acc p := by
  unfold readStep
  rw [lensFromTo_frame g P n L p.schemaId reader hfresh hp hr,
    lensGraphSchema_frame g P n L p.schemaId hfresh hp]

theorem foldPatches_frame (g : LensGraph) (P n : SchemaId) (L : Lens)
    (reader : SchemaId) (hfresh : n ∉ nodesOf g) (hr : reader ≠ n) :
    ∀ ps acc, (∀ p ∈ ps, p.schemaId ≠ n) →
      foldPatches (registerLens g P n L) reader acc ps = foldPatches g reader acc ps := by
  intro ps
  induction ps with
  | nil => intro acc _; rfl
  | cons p ps0 ih =>
    intro acc hall
    unfold foldPatches
    rw [readStep_frame g P n L reader acc p hfresh (hall p (List.mem_cons_self p ps0)) hr]
    cases readStep g reader acc p with
    | ok acc2 => exact ih acc2 (fun q hq => hall q (List.mem_cons_of_mem p hq))
    | error e => rfl

/-! ### readAs congruence and the registration frame for readAs -/

theorem lookupName_setName_self (m : List (String × String)) (k v : String) :
    lookupName (setName m k v) k = some v := by
  induction m with
  | nil => simp [setName, lookupName]
  | cons kv rest ih =>
    by_cases h : kv.1 = k
    · simp [setName, h, lookupName]
    · simp [setName, h, lookupName, ih]

theorem lookupName_setName_other (m : List (String × String)) (k k2 v : String)
    (hne : k2 ≠ k) : lookupName (setName m k v) k2 = lookupName m k2 := by
  induction m with
  | nil => simp [setName, lookupName, Ne.symm hne]
  | cons kv rest ih =>
    by_cases h : kv.1 = k
    · simp [setName, h, lookupName, Ne.symm hne]
    · simp [setName, h, lookupName, ih]

theorem readAs_congr (s1 s2 : CambriaStore) (d1 d2 : RawDoc) (r : SchemaId)
    (hg : s1.graph = s2.graph) (hd : d1.patches = d2.patches) :
    s1.readAs d1 r = s2.readAs d2 r := by
  unfold CambriaStore.readAs
  rw [hg, hd]

theorem readAs_register_fresh (s s2 : CambriaStore) (P n : SchemaId) (L : Lens)
    (reader : SchemaId) (d : RawDoc)
    (hg : s2.graph = registerLens s.graph P n L)
    (hfresh : n ∉ nodesOf s.graph) (hr : reader ≠ n)
    (hd : ∀ p ∈ d.patches.getD [], p.schemaId ≠ n) :
    s2.readAs d reader = s.readAs d reader := by
  unfold CambriaStore.readAs
  rw [hg]
  cases hp : d.patches with
  | none => rfl
  | some ps =>
    have hall : ∀ p ∈ ({ schemaId := reader, patch := [Op.add [] (Value.obj .nil)] } :
        TypedPatch) :: ps, p.schemaId ≠ n := by
      intro p hmem
      rcases List.mem_cons.mp hmem with h | h
      · subst h; exact hr
      · exact hd p (by rw [hp]; exact h)
    exact foldPatches_frame s.graph P n L reader hfresh hr _ _ hall

theorem readAs_none_eq (s : CambriaStore) (r : SchemaId) :
    s.readAs { patches := none } r = .error .malformedDoc := rfl

theorem readAs_some_eq (s : CambriaStore) (ps : List TypedPatch) (r : SchemaId) :
    s.readAs { patches := some ps } r =
      foldPatches s.graph r (Value.obj .nil)
        ({ schemaId := r, patch := [Op.add [] (Value.obj .nil)] } :: ps) := rfl

/-! ### Claim theorems -/

/-- C1: for every document D, schema identity S and mutation callback f, after
a successful changeTypedDoc(D, S, f), readAs(D, S) returns exactly the value
f produced from the pre-write materialization readAs(D, S). -/
theorem claim1_read_after_write (s : CambriaStore) (d : RawDoc) (S : SchemaId)
    (f : Value → Except Err Value) (v w : Value) (s2 : CambriaStore) (d2 : RawDoc)
    (hv : s.readAs d S = .ok v) (hf : f v = .ok w)
    (hch : s.changeTypedDoc d S f = (.ok (), s2, d2)) :
    s2.readAs d2 S = .ok w := by
  unfold CambriaStore.changeTypedDoc at hch
  rw [hv] at hch
  simp only [hf, Prod.mk.injEq] at hch
  obtain ⟨-, hs2, hd2⟩ := hch
  subst hs2
  subst hd2
  obtain ⟨dp⟩ := d
  cases dp with
  | none =>
    rw [readAs_none_eq] at hv
    exact Except.noConfusion hv
  | some ps =>
    rw [readAs_some_eq] at hv
    show s.readAs { patches := some (ps ++ [{ schemaId := S, patch := diff v w }]) } S
      = .ok w
    rw [readAs_some_eq]
    have hsplit :
        ({ schemaId := S, patch := [Op.add [] (Value.obj .nil)] } : TypedPatch) ::
          (ps ++ [{ schemaId := S, patch := diff v w }]) =
        (({ schemaId := S, patch := [Op.add [] (Value.obj .nil)] } : TypedPatch) :: ps)
          ++ [{ schemaId := S, patch := diff v w }] := rfl
    rw [hsplit, foldPatches_append, hv]
    simp [foldPatches, readStep_diff_self]

/-- C4: a successful changeTypedDoc appends exactly one entry tagged with the
writer schema at the end of the log, leaving every pre-existing entry
unchanged in content and order, and initDoc creates a one-entry log; readAs
takes no part in writing (it returns only a value in this embedding, as the
source never mutates the document while reading). -/
theorem claim4_append_only :
    (∀ (s : CambriaStore) (d : RawDoc) (S : SchemaId) (f : Value → Except Err Value)
       (s2 : CambriaStore) (d2 : RawDoc),
       s.changeTypedDoc d S f = (.ok (), s2, d2) →
       ∃ ps q, d.patches = some ps ∧
         d2.patches = some (ps ++ [{ schemaId := S, patch := q }]))
    ∧ (∀ (pojo : Value) (S : SchemaId),
       (CambriaStore.initDoc pojo S).patches =
         some [{ schemaId := S, patch := diff (Value.obj .nil) pojo }]) := by
  constructor
  · intro s d S f s2 d2 hch
    unfold CambriaStore.changeTypedDoc at hch
    cases hv : s.readAs d S with
    | error e => rw [hv] at hch; cases hch
    | ok v =>
      rw [hv] at hch
      cases hcb : v |> f with
      | error e => simp only [hcb] at hch; cases hch
      | ok w =>
        simp only [hcb, Prod.mk.injEq] at hch
        obtain ⟨-, -, hd2⟩ := hch
        cases hp : d.patches with
        | none =>
          unfold CambriaStore.readAs at hv
          rw [hp] at hv
          exact Except.noConfusion hv
        | some ps =>
          refine ⟨ps, diff v w, rfl, ?_⟩
          rw [← hd2, hp]
          rfl
  · intro pojo S
    rfl

/-- C6: when changeTypedDoc fails for any reason, a malformed document, a
missing lens path, a patch that fails to apply, or an exception from the
caller's callback, the store (graph and name-to-head map) and the document
log come back exactly as they were; readAs touches no state at all. -/
theorem claim6_atomic_failure (s : CambriaStore) (d : RawDoc) (S : SchemaId)
    (f : Value → Except Err Value) (e : Err) (s2 : CambriaStore) (d2 : RawDoc)
    (h : s.changeTypedDoc d S f = (.error e, s2, d2)) :
    s2 = s ∧ d2 = d := by
  unfold CambriaStore.changeTypedDoc at h
  cases hv : s.readAs d S with
  | error e0 =>
    rw [hv] at h
    simp only [Prod.mk.injEq] at h
    exact ⟨h.2.1.symm, h.2.2.symm⟩
  | ok v =>
    rw [hv] at h
    cases hcb : v |> f with
    | error e0 =>
      simp only [hcb, Prod.mk.injEq] at h
      exact ⟨h.2.1.symm, h.2.2.symm⟩
    | ok w =>
      simp only [hcb] at h
      cases h

/-- Witness for C1 at a concrete store, document and callback. -/
theorem claim1_read_after_write_witness :
    CambriaStore.readAs wStore1
      { patches := wDoc.patches.map
          (fun ps => ps ++ [{ schemaId := wV1, patch := diff wV wNew }]) } wV1
      = .ok wNew :=
  claim1_read_after_write wStore1 wDoc wV1 (fun _ => .ok wNew) wV wNew wStore1 _
    rfl rfl rfl

/-- Witness for C4 at a concrete store and document. -/
theorem claim4_append_only_witness :
    (∃ ps q, wDoc.patches = some ps ∧
      ({ patches := wDoc.patches.map
          (fun ps => ps ++ [{ schemaId := wV1, patch := diff wV wNew }]) } : RawDoc).patches
        = some (ps ++ [{ schemaId := wV1, patch := q }])) ∧
    (CambriaStore.initDoc wV wV1).patches =
      some [{ schemaId := wV1, patch := diff (Value.obj .nil) wV }] :=
  ⟨claim4_append_only.1 wStore1 wDoc wV1 (fun _ => .ok wNew) wStore1 _ rfl,
   claim4_append_only.2 wV wV1⟩

/-- Witness for C6: a malformed document makes changeTypedDoc fail and the
state components come back unchanged. -/
theorem claim6_atomic_failure_witness :
    wStore1 = wStore1 ∧ ({ patches := none } : RawDoc) = { patches := none } :=
  claim6_atomic_failure wStore1 { patches := none } wV1 (fun x => .ok x)
    .malformedDoc wStore1 { patches := none } rfl

/-- C2: schema identity derivation is a deterministic pure function of the
predecessor identity and the lens content: two stores, however they were
built, derive the same identity from (P, L), namely the hash of the
predecessor id concatenated with the serialized lens. -/
theorem claim2_deterministic_identity (s1 s2 : CambriaStore) (L : Lens) (P : SchemaId) :
    (s1.upgradeSchemaById L P).1 = (s2.upgradeSchemaById L P).1 ∧
    (s1.upgradeSchemaById L P).1 = md5Hex (P ++ lensToString L) :=
  ⟨rfl, rfl⟩

/-- C7: upgradeSchemaByName fails with the unknown-lineage error and changes
nothing when the name has no head; otherwise it derives the new identity from
(head, lens), registers the edge, moves the head pointer and returns the new
identity; upgradeSchemaById does the same derivation and edge insertion but
leaves the head map untouched. -/
theorem claim7_registration_contract (s : CambriaStore) (L : Lens) (N : String) :
    (lookupName s.headSchemas N = none →
      s.upgradeSchemaByName L N = (.error .unknownSchema, s))
    ∧ (∀ hid, lookupName s.headSchemas N = some hid → hid ≠ "" →
        s.upgradeSchemaByName L N =
          (.ok (md5Hex (hid ++ lensToString L)),
           { headSchemas := setName s.headSchemas N (md5Hex (hid ++ lensToString L)),
             graph := registerLens s.graph hid (md5Hex (hid ++ lensToString L)) L }))
    ∧ (∀ P, s.upgradeSchemaById L P =
          (md5Hex (P ++ lensToString L),
           { headSchemas := s.headSchemas,
             graph := registerLens s.graph P (md5Hex (P ++ lensToString L)) L })) := by
  refine ⟨?_, ?_, ?_⟩
  · intro h
    unfold CambriaStore.upgradeSchemaByName
    rw [h]
  · intro hid hlook hne
    unfold CambriaStore.upgradeSchemaByName
    rw [hlook]
    simp [hne]
    exact ⟨rfl, rfl, rfl⟩
  · intro P
    rfl

/-- Witness for C7, exercising both the missing-name branch and the
successful branch at a concrete store. -/
theorem claim7_registration_contract_witness :
    wStore1.upgradeSchemaByName wLens "Missing" = (.error .unknownSchema, wStore1) ∧
    wStore1.upgradeSchemaByName wLens "Project" =
      (.ok (md5Hex (wRoot ++ lensToString wLens)),
       { headSchemas := setName wStore1.headSchemas "Project"
           (md5Hex (wRoot ++ lensToString wLens)),
         graph := registerLens wStore1.graph wRoot
           (md5Hex (wRoot ++ lensToString wLens)) wLens }) :=
  ⟨(claim7_registration_contract wStore1 wLens "Missing").1 rfl,
   (claim7_registration_contract wStore1 wLens "Project").2.1 wRoot rfl (by decide)⟩

/-- C9: initializeSchema is total: it derives the root identity from the name
alone, registers an edge from the sentinel mu with the empty lens, and points
the name at the root identity; when the name already had a head it silently
overwrites the binding (no history is kept), while all other names keep their
bindings. -/
theorem claim9_initializeSchema_overwrites (s : CambriaStore) (N : String) :
    s.initializeSchema N =
      (md5Hex N,
       { headSchemas := setName s.headSchemas N (md5Hex N),
         graph := registerLens s.graph "mu" (md5Hex N) [] })
    ∧ lookupName (s.initializeSchema N).2.headSchemas N = some (md5Hex N)
    ∧ ∀ M, M ≠ N → lookupName (s.initializeSchema N).2.headSchemas M =
        lookupName s.headSchemas M := by
  refine ⟨rfl, ?_, ?_⟩
  · exact lookupName_setName_self _ _ _
  · intro M hM
    exact lookupName_setName_other _ _ _ _ hM

/-- Witness for C9: re-creating the Project lineage on a store that already
has it, and checking an unrelated name survives. -/
theorem claim9_initializeSchema_overwrites_witness :
    lookupName (wStore0.initializeSchema "Project").2.headSchemas "Other" =
      lookupName wStore0.headSchemas "Other" :=
  (claim9_initializeSchema_overwrites wStore0 "Project").2.2 "Other" (by decide)

/-- C5: materialization is a pure function of the lens graph and the
document's entry sequence alone (neither the head-pointer map nor anything
else): with the same graph and the same log, in particular on the very same
inputs read twice with no intervening write, readAs returns equal values.
The document argument itself is never written by a read: in this embedding
the only operation returning an updated document is changeTypedDoc, mirroring
that the source's only document write is its final push. -/
theorem claim5_idempotent_materialization (s1 s2 : CambriaStore) (d1 d2 : RawDoc)
    (T : SchemaId) (hg : s1.graph = s2.graph) (hd : d1.patches = d2.patches) :
    s1.readAs d1 T = s2.readAs d2 T :=
  readAs_congr s1 s2 d1 d2 T hg hd

/-- Witness for C5 on a concrete store and document. -/
theorem claim5_idempotent_materialization_witness :
    CambriaStore.readAs { headSchemas := [], graph := wStore1.graph } wDoc wV1 =
      CambriaStore.readAs wStore1 wDoc wV1 :=
  claim5_idempotent_materialization
    { headSchemas := [], graph := wStore1.graph } wStore1 wDoc wDoc wV1 rfl rfl

/-- C8: readAs prepends a synthetic leading entry, a patch adding the empty
object at the root tagged with the reader identity, before folding the log
left to right: it coincides with the CambriaLocalStorage readAs variant run
on the document with exactly that entry prepended.  Moreover, on a document
none of whose entries ever touched the schema's property (an empty log), the
prepended entry makes the target-schema default materialize, while the
variant without it returns a bare empty object. -/
theorem claim8_synthetic_init_entry :
    (∀ (s : CambriaStore) (d : RawDoc) (T : SchemaId),
      s.readAs d T =
        CambriaLocalStorage.readAs s
          { patches := d.patches.map
              (fun ps =>
                ({ schemaId := T, patch := [Op.add [] (Value.obj .nil)] } : TypedPatch)
                  :: ps) }
          T)
    ∧ CambriaStore.readAs wStore1 { patches := some [] } wV1 =
        .ok (Value.obj (.cons "title" (Value.str "") .nil))
    ∧ CambriaLocalStorage.readAs wStore1 { patches := some [] } wV1 =
        .ok (Value.obj .nil) := by
  refine ⟨?_, rfl, rfl⟩
  intro s d T
  obtain ⟨dp⟩ := d
  cases dp with
  | none => rfl
  | some ps => rfl

/-- C10: a changeTypedDoc whose callback returns the materialized value
unchanged still appends exactly one entry, tagged with the writer schema and
carrying the empty patch, and that appended empty entry leaves readAs
unchanged under every target identity reachable from the writer schema. -/
theorem claim10_noop_write (s : CambriaStore) (d : RawDoc) (S : SchemaId)
    (f : Value → Except Err Value) (v : Value)
    (hv : s.readAs d S = .ok v) (hf : f v = .ok v) :
    s.changeTypedDoc d S f =
      (.ok (), s,
       { patches := d.patches.map (fun ps => ps ++ [{ schemaId := S, patch := [] }]) })
    ∧ (∀ T l, lensFromTo s.graph S T = some l →
        s.readAs
          { patches := d.patches.map
              (fun ps => ps ++ [{ schemaId := S, patch := [] }]) }
          T
          = s.readAs d T) := by
  constructor
  · unfold CambriaStore.changeTypedDoc
    rw [hv]
    simp only [hf]
    simp [diff]
  · intro T l hl
    obtain ⟨dp⟩ := d
    cases dp with
    | none => rfl
    | some ps =>
      show s.readAs { patches := some (ps ++ [{ schemaId := S, patch := [] }]) } T =
        s.readAs { patches := some ps } T
      rw [readAs_some_eq, readAs_some_eq]
      have hsplit :
          ({ schemaId := T, patch := [Op.add [] (Value.obj .nil)] } : TypedPatch) ::
            (ps ++ [{ schemaId := S, patch := [] }]) =
          (({ schemaId := T, patch := [Op.add [] (Value.obj .nil)] } : TypedPatch) :: ps)
            ++ [{ schemaId := S, patch := [] }] := rfl
      rw [hsplit, foldPatches_append]
      cases hfold : foldPatches s.graph T (Value.obj .nil)
          (({ schemaId := T, patch := [Op.add [] (Value.obj .nil)] } : TypedPatch) :: ps) with
      | error e => rfl
      | ok acc =>
        simp [foldPatches, readStep, hl, applyLensToPatch, applyPatch]

/-- Witness for C10 on a concrete store and document with the identity
callback. -/
theorem claim10_noop_write_witness :
    (CambriaStore.changeTypedDoc wStore1 wDoc wV1 Except.ok =
      (.ok (), wStore1,
       { patches := wDoc.patches.map
           (fun ps => ps ++ [{ schemaId := wV1, patch := [] }]) }))
    ∧ CambriaStore.readAs wStore1
        { patches := wDoc.patches.map
            (fun ps => ps ++ [{ schemaId := wV1, patch := [] }]) } wV1
      = CambriaStore.readAs wStore1 wDoc wV1 :=
  ⟨(claim10_noop_write wStore1 wDoc wV1 Except.ok wV rfl rfl).1,
   (claim10_noop_write wStore1 wDoc wV1 Except.ok wV rfl rfl).2 wV1 [] rfl⟩

/-- C3: registering a new schema version, which only adds one edge from the
predecessor to the freshly derived identity, leaves the value of readAs
unchanged for every existing document and pre-existing target identity, both
for upgradeSchemaById and for upgradeSchemaByName; freshness of the derived
identity (and that neither the reader nor the document's entries mention it)
is hypothesized, as the claim's freshly-derived wording states. -/
theorem claim3_nondestructive_evolution (s : CambriaStore) (L : Lens) (P : SchemaId)
    (N : String) (S : SchemaId) (d : RawDoc)
    (hfresh : md5Hex (P ++ lensToString L) ∉ nodesOf s.graph)
    (hS : S ≠ md5Hex (P ++ lensToString L))
    (hd : ∀ p ∈ d.patches.getD [], p.schemaId ≠ md5Hex (P ++ lensToString L)) :
    ((s.upgradeSchemaById L P).2.readAs d S = s.readAs d S)
    ∧ (∀ r s2, lookupName s.headSchemas N = some P → P ≠ "" →
        s.upgradeSchemaByName L N = (.ok r, s2) →
        s2.readAs d S = s.readAs d S) := by
  constructor
  · exact readAs_register_fresh s _ P (md5Hex (P ++ lensToString L)) L S d rfl
      hfresh hS hd
  · intro r s2 hlook hne hup
    unfold CambriaStore.upgradeSchemaByName at hup
    rw [hlook] at hup
    simp only [if_neg hne, Prod.mk.injEq, Except.ok.injEq] at hup
    obtain ⟨h1, h2⟩ := hup
    exact readAs_register_fresh s s2 P (md5Hex (P ++ lensToString L)) L S d
      (by subst h2; rfl) hfresh hS hd

/-- Witness for C3 on a concrete store, lens and document. -/
theorem claim3_nondestructive_evolution_witness :
    (wStore1.upgradeSchemaById wLens2 wV1).2.readAs wDoc wV1 =
      wStore1.readAs wDoc wV1 :=
  (claim3_nondestructive_evolution wStore1 wLens2 wV1 "Project" wV1 wDoc
    (by decide) (by decide) (by decide)).1
